import Mathlib

/-!
# Frame-element coordinate transform (`frame3dd.cpp`)

A shallow embedding of `FromFrame3dd`, `CoorTransform`, `Transform` and `main`.

The program computes on `double`.  The embedding is written over an arbitrary
linearly ordered field `α`, with the three library functions the program calls
(`std::sqrt`, `std::cos`, `std::sin`) passed in as arguments, so every definition
is an ordinary computable function.  The theorems instantiate `α` with `ℝ` and
the library functions with `Real.sqrt`, `Real.cos`, `Real.sin`: they are
statements about the program run in exact real arithmetic.

Division is the field's total division.  Every theorem that reads a quotient
carries the precondition under which its divisor is non-zero: for distinct end
points the length `L` is positive (`elemL_pos`), and in the general branch so is
`den` (`elemDen_pos`).
-/

namespace Frame3dd

/-- The source's `struct Point { double x, y, z; }`. -/
structure Point (α : Type) where
  x : α
  y : α
  z : α

/-- The nine output parameters `*t1 … *t9` of `FromFrame3dd`. -/
structure Coeffs (α : Type) where
  t1 : α
  t2 : α
  t3 : α
  t4 : α
  t5 : α
  t6 : α
  t7 : α
  t8 : α
  t9 : α

section Program

variable {α : Type} [LinearOrderedField α]

/-- Local `L` of `FromFrame3dd` (line 15): the element length. -/
def elemL (sqrt : α → α) (p1 p2 : Point α) : α :=
  sqrt ((p2.x - p1.x) ^ 2 + (p2.y - p1.y) ^ 2 + (p2.z - p1.z) ^ 2)

/-- Local `Cx` of `FromFrame3dd` (line 16). -/
def elemCx (sqrt : α → α) (p1 p2 : Point α) : α :=
  (p2.x - p1.x) / elemL sqrt p1 p2

/-- Local `Cy` of `FromFrame3dd` (line 17). -/
def elemCy (sqrt : α → α) (p1 p2 : Point α) : α :=
  (p2.y - p1.y) / elemL sqrt p1 p2

/-- Local `Cz` of `FromFrame3dd` (line 18). -/
def elemCz (sqrt : α → α) (p1 p2 : Point α) : α :=
  (p2.z - p1.z) / elemL sqrt p1 p2

/-- Local `den` of the `else` branch of `FromFrame3dd` (line 33). -/
def elemDen (sqrt : α → α) (p1 p2 : Point α) : α :=
  let Cz := elemCz sqrt p1 p2
  sqrt (1 - Cz * Cz)

/-- The function `FromFrame3dd`: the nine outputs are first all set to `0.0`
(line 20) and then overwritten in one of the two branches. -/
def FromFrame3dd (sqrt cos sin : α → α) (p1 p2 : Point α) (p : α) : Coeffs α :=
  let Cx := elemCx sqrt p1 p2
  let Cy := elemCy sqrt p1 p2
  let Cz := elemCz sqrt p1 p2
  let t : Coeffs α := ⟨0, 0, 0, 0, 0, 0, 0, 0, 0⟩
  let Cp := cos p
  let Sp := sin p
  if |Cz| = 1 then
    { t with
      t3 := Cz
      t4 := -Cz * Sp
      t5 := Cp
      t7 := -Cz * Cp
      t8 := -Sp }
  else
    let den := elemDen sqrt p1 p2
    { t with
      t1 := Cx
      t2 := Cy
      t3 := Cz
      t4 := (-Cx * Cz * Sp - Cy * Cp) / den
      t5 := (-Cy * Cz * Sp + Cx * Cp) / den
      t6 := Sp * den
      t7 := (-Cx * Cz * Cp + Cy * Sp) / den
      t8 := (-Cy * Cz * Cp - Cx * Sp) / den
      t9 := Cp * den }

/-- The call `v.resize(n)` of `std::vector`: keep the first `n` elements and
pad with value-initialised elements `d` up to length `n`. -/
def resize {β : Type} (d : β) (n : Nat) (v : List β) : List β :=
  v.take n ++ List.replicate (n - v.length) d

/-- The read `a[i][j]` of a `std::vector<std::vector<double>>`.  The source
does not check the indices; a read outside the container yields `0` here. -/
def at2 (a : List (List α)) (i j : Nat) : α :=
  (a.getD i []).getD j 0

/-- The statement `a[i].resize(3)`. -/
def resizeRow (a : List (List α)) (i : Nat) : List (List α) :=
  a.set i (resize 0 3 (a.getD i []))

/-- The assignment `a[i][j] = v`. -/
def assign (a : List (List α)) (i j : Nat) (v : α) : List (List α) :=
  a.set i ((a.getD i []).set j v)

/-- The function `CoorTransform`: the nine coefficients packed into a vector of
three rows. -/
def CoorTransform (sqrt cos sin : α → α) (p1 p2 : Point α) (roll : α) :
    List (List α) :=
  let t := FromFrame3dd sqrt cos sin p1 p2 roll
  let a : List (List α) := []
  let a := resize [] 3 a
  let a := (List.range 3).foldl resizeRow a
  let a := assign a 0 0 t.t1
  let a := assign a 0 1 t.t2
  let a := assign a 0 2 t.t3
  let a := assign a 1 0 t.t4
  let a := assign a 1 1 t.t5
  let a := assign a 1 2 t.t6
  let a := assign a 2 0 t.t7
  let a := assign a 2 1 t.t8
  let a := assign a 2 2 t.t9
  a

/-- The function `Transform`: the point `pp` it computes (lines 93-97).  The
source then prints `p` and `pp`; the printing is not modelled. -/
def Transform (a : List (List α)) (p : Point α) : Point α :=
  { x := at2 a 0 0 * p.x + at2 a 0 1 * p.y + at2 a 0 2 * p.z
    y := at2 a 1 0 * p.x + at2 a 1 1 * p.y + at2 a 1 2 * p.z
    z := at2 a 2 0 * p.x + at2 a 2 1 * p.y + at2 a 2 2 * p.z }

/-- The function `main`, with the constant `M_PI` as a parameter: the point
that its call of `Transform` computes. -/
def main (sqrt cos sin : α → α) (M_PI : α) : Point α :=
  let p1 : Point α := ⟨0, 0, 0⟩
  let p2 : Point α := ⟨0, 0, 5⟩
  let roll := M_PI / 2
  let a := CoorTransform sqrt cos sin p1 p2 roll
  Transform a ⟨1, 0, 0⟩

/-- A vector of vectors read as a 3×3 matrix, entry `(i, j)` being `a[i][j]`. -/
def toMatrix (a : List (List α)) : Matrix (Fin 3) (Fin 3) α :=
  Matrix.of fun i j => at2 a i.val j.val

/-- The `k`-th output `tk` of `FromFrame3dd`, for `k` from `1` to `9`. -/
def Coeffs.nth (t : Coeffs α) : Nat → α
  | 1 => t.t1
  | 2 => t.t2
  | 3 => t.t3
  | 4 => t.t4
  | 5 => t.t5
  | 6 => t.t6
  | 7 => t.t7
  | 8 => t.t8
  | 9 => t.t9
  | _ => 0

/-- The rotation by the angle `r` about the first (local X) axis, as the
specification writes it: `[[1,0,0],[0,cos r,sin r],[0,-sin r,cos r]]`. -/
def Rx (cos sin : α → α) (r : α) : Matrix (Fin 3) (Fin 3) α :=
  !![1, 0, 0; 0, cos r, sin r; 0, -sin r, cos r]

end Program

/-! ## 3×3 matrices -/

section Matrices

/-- Two 3×3 matrices with equal entries are equal. -/
theorem mat3_eq {α : Type} {a b c d e f g h i a' b' c' d' e' f' g' h' i' : α}
    (ha : a = a') (hb : b = b') (hc : c = c') (hd : d = d') (he : e = e') (hf : f = f')
    (hg : g = g') (hh : h = h') (hi : i = i') :
    !![a, b, c; d, e, f; g, h, i] = !![a', b', c'; d', e', f'; g', h', i'] := by
  subst ha hb hc hd he hf hg hh hi
  rfl

/-- The transpose of a 3×3 matrix, entry by entry. -/
theorem transpose3 {α : Type} (a b c d e f g h i : α) :
    (!![a, b, c; d, e, f; g, h, i]).transpose = !![a, d, g; b, e, h; c, f, i] := by
  ext m n
  fin_cases m <;> fin_cases n <;> rfl

/-- The transpose of a vector of three rows of three entries. -/
theorem transpose_rows {α : Type} (a b c d e f g h i : α) :
    List.transpose [[a, b, c], [d, e, f], [g, h, i]] = [[a, d, g], [b, e, h], [c, f, i]] :=
  rfl

end Matrices

/-! ## Packaging -/

section Packaging

variable {α : Type} [LinearOrderedField α]

/-- The container built by `CoorTransform` is the row-major list of the nine
coefficients. -/
theorem CoorTransform_eq (sqrt cos sin : α → α) (p1 p2 : Point α) (roll : α) :
    CoorTransform sqrt cos sin p1 p2 roll =
      [[(FromFrame3dd sqrt cos sin p1 p2 roll).t1, (FromFrame3dd sqrt cos sin p1 p2 roll).t2,
        (FromFrame3dd sqrt cos sin p1 p2 roll).t3],
       [(FromFrame3dd sqrt cos sin p1 p2 roll).t4, (FromFrame3dd sqrt cos sin p1 p2 roll).t5,
        (FromFrame3dd sqrt cos sin p1 p2 roll).t6],
       [(FromFrame3dd sqrt cos sin p1 p2 roll).t7, (FromFrame3dd sqrt cos sin p1 p2 roll).t8,
        (FromFrame3dd sqrt cos sin p1 p2 roll).t9]] := by
  simp [CoorTransform, resize, resizeRow, assign, List.range, List.range.loop]

/-- A vector of three rows of three entries, read as a matrix. -/
theorem toMatrix_rows (a b c d e f g h i : α) :
    toMatrix [[a, b, c], [d, e, f], [g, h, i]] = !![a, b, c; d, e, f; g, h, i] := by
  ext m n
  fin_cases m <;> fin_cases n <;> rfl

/-- The outputs of `FromFrame3dd` when the test `|Cz| == 1` succeeds. -/
theorem FromFrame3dd_vertical (sqrt cos sin : α → α) (p1 p2 : Point α) (p : α)
    (h : |elemCz sqrt p1 p2| = 1) :
    FromFrame3dd sqrt cos sin p1 p2 p =
      ⟨0, 0, elemCz sqrt p1 p2, -elemCz sqrt p1 p2 * sin p, cos p, 0,
        -elemCz sqrt p1 p2 * cos p, -sin p, 0⟩ := by
  simp [FromFrame3dd, h]

/-- The outputs of `FromFrame3dd` when the test `|Cz| == 1` fails. -/
theorem FromFrame3dd_general (sqrt cos sin : α → α) (p1 p2 : Point α) (p : α)
    (h : |elemCz sqrt p1 p2| ≠ 1) :
    FromFrame3dd sqrt cos sin p1 p2 p =
      ⟨elemCx sqrt p1 p2, elemCy sqrt p1 p2, elemCz sqrt p1 p2,
        (-elemCx sqrt p1 p2 * elemCz sqrt p1 p2 * sin p - elemCy sqrt p1 p2 * cos p) /
          elemDen sqrt p1 p2,
        (-elemCy sqrt p1 p2 * elemCz sqrt p1 p2 * sin p + elemCx sqrt p1 p2 * cos p) /
          elemDen sqrt p1 p2,
        sin p * elemDen sqrt p1 p2,
        (-elemCx sqrt p1 p2 * elemCz sqrt p1 p2 * cos p + elemCy sqrt p1 p2 * sin p) /
          elemDen sqrt p1 p2,
        (-elemCy sqrt p1 p2 * elemCz sqrt p1 p2 * cos p - elemCx sqrt p1 p2 * sin p) /
          elemDen sqrt p1 p2,
        cos p * elemDen sqrt p1 p2⟩ := by
  simp [FromFrame3dd, h]

/-- The matrix of `CoorTransform` in the vertical branch. -/
theorem toMatrix_vertical (sqrt cos sin : α → α) (p1 p2 : Point α) (p : α)
    (h : |elemCz sqrt p1 p2| = 1) :
    toMatrix (CoorTransform sqrt cos sin p1 p2 p) =
      !![0, 0, elemCz sqrt p1 p2;
         -elemCz sqrt p1 p2 * sin p, cos p, 0;
         -elemCz sqrt p1 p2 * cos p, -sin p, 0] := by
  rw [CoorTransform_eq, toMatrix_rows, FromFrame3dd_vertical sqrt cos sin p1 p2 p h]

/-- The matrix of `CoorTransform` in the general branch. -/
theorem toMatrix_general (sqrt cos sin : α → α) (p1 p2 : Point α) (p : α)
    (h : |elemCz sqrt p1 p2| ≠ 1) :
    toMatrix (CoorTransform sqrt cos sin p1 p2 p) =
      !![elemCx sqrt p1 p2, elemCy sqrt p1 p2, elemCz sqrt p1 p2;
         (-elemCx sqrt p1 p2 * elemCz sqrt p1 p2 * sin p - elemCy sqrt p1 p2 * cos p) /
            elemDen sqrt p1 p2,
         (-elemCy sqrt p1 p2 * elemCz sqrt p1 p2 * sin p + elemCx sqrt p1 p2 * cos p) /
            elemDen sqrt p1 p2,
         sin p * elemDen sqrt p1 p2;
         (-elemCx sqrt p1 p2 * elemCz sqrt p1 p2 * cos p + elemCy sqrt p1 p2 * sin p) /
            elemDen sqrt p1 p2,
         (-elemCy sqrt p1 p2 * elemCz sqrt p1 p2 * cos p - elemCx sqrt p1 p2 * sin p) /
            elemDen sqrt p1 p2,
         cos p * elemDen sqrt p1 p2] := by
  rw [CoorTransform_eq, toMatrix_rows, FromFrame3dd_general sqrt cos sin p1 p2 p h]

end Packaging

/-! ## The geometry of the element in exact real arithmetic -/

section Geometry

/-- An absolute value is `1` exactly when the square is `1`. -/
theorem abs_eq_one_iff_sq (c : ℝ) : |c| = 1 ↔ c ^ 2 = 1 := by
  constructor
  · intro h
    rw [← sq_abs, h]
    norm_num
  · intro h
    have h2 : |c| ^ 2 = 1 := by rwa [sq_abs]
    nlinarith [abs_nonneg c]

/-- The squared distance of two distinct points is positive. -/
theorem sqdist_pos (p1 p2 : Point ℝ) (h : p1 ≠ p2) :
    0 < (p2.x - p1.x) ^ 2 + (p2.y - p1.y) ^ 2 + (p2.z - p1.z) ^ 2 := by
  by_contra hn
  have h0 : (p2.x - p1.x) ^ 2 + (p2.y - p1.y) ^ 2 + (p2.z - p1.z) ^ 2 = 0 :=
    le_antisymm (not_lt.mp hn) (by positivity)
  have hx : p2.x - p1.x = 0 := by
    nlinarith [sq_nonneg (p2.x - p1.x), sq_nonneg (p2.y - p1.y), sq_nonneg (p2.z - p1.z)]
  have hy : p2.y - p1.y = 0 := by
    nlinarith [sq_nonneg (p2.x - p1.x), sq_nonneg (p2.y - p1.y), sq_nonneg (p2.z - p1.z)]
  have hz : p2.z - p1.z = 0 := by
    nlinarith [sq_nonneg (p2.x - p1.x), sq_nonneg (p2.y - p1.y), sq_nonneg (p2.z - p1.z)]
  apply h
  cases p1
  cases p2
  simp only [Point.mk.injEq]
  simp only at hx hy hz
  exact ⟨by linarith, by linarith, by linarith⟩

/-- The length of an element with distinct end points is positive. -/
theorem elemL_pos (p1 p2 : Point ℝ) (h : p1 ≠ p2) : 0 < elemL Real.sqrt p1 p2 :=
  Real.sqrt_pos.mpr (sqdist_pos p1 p2 h)

/-- The square of the length is the squared distance. -/
theorem elemL_sq (p1 p2 : Point ℝ) :
    elemL Real.sqrt p1 p2 ^ 2 =
      (p2.x - p1.x) ^ 2 + (p2.y - p1.y) ^ 2 + (p2.z - p1.z) ^ 2 :=
  Real.sq_sqrt (by positivity)

/-- The direction cosines form a unit vector. -/
theorem dircos_unit (p1 p2 : Point ℝ) (h : p1 ≠ p2) :
    elemCx Real.sqrt p1 p2 ^ 2 + elemCy Real.sqrt p1 p2 ^ 2 + elemCz Real.sqrt p1 p2 ^ 2 = 1 := by
  have hL := elemL_pos p1 p2 h
  have hsq := elemL_sq p1 p2
  unfold elemCx elemCy elemCz
  field_simp
  linarith

/-- The third direction cosine lies between `-1` and `1`. -/
theorem elemCz_sq_le_one (p1 p2 : Point ℝ) (h : p1 ≠ p2) :
    elemCz Real.sqrt p1 p2 ^ 2 ≤ 1 := by
  have := dircos_unit p1 p2 h
  nlinarith [sq_nonneg (elemCx Real.sqrt p1 p2), sq_nonneg (elemCy Real.sqrt p1 p2)]

/-- The test `|Cz| == 1` succeeds exactly when the two other direction cosines vanish. -/
theorem abs_elemCz_eq_one_iff (p1 p2 : Point ℝ) (h : p1 ≠ p2) :
    |elemCz Real.sqrt p1 p2| = 1 ↔ p1.x = p2.x ∧ p1.y = p2.y := by
  have hL := elemL_pos p1 p2 h
  have hsq := elemL_sq p1 p2
  have hu := dircos_unit p1 p2 h
  have hxy : elemCx Real.sqrt p1 p2 ^ 2 + elemCy Real.sqrt p1 p2 ^ 2 =
      ((p2.x - p1.x) ^ 2 + (p2.y - p1.y) ^ 2) / elemL Real.sqrt p1 p2 ^ 2 := by
    unfold elemCx elemCy
    field_simp
  rw [abs_eq_one_iff_sq]
  constructor
  · intro hz
    have h0 : ((p2.x - p1.x) ^ 2 + (p2.y - p1.y) ^ 2) / elemL Real.sqrt p1 p2 ^ 2 = 0 := by
      rw [← hxy]
      linarith
    have h1 : (p2.x - p1.x) ^ 2 + (p2.y - p1.y) ^ 2 = 0 := by
      rcases div_eq_zero_iff.mp h0 with h1 | h1
      · exact h1
      · exact absurd h1 (by positivity)
    constructor
    · nlinarith [sq_nonneg (p2.x - p1.x), sq_nonneg (p2.y - p1.y)]
    · nlinarith [sq_nonneg (p2.x - p1.x), sq_nonneg (p2.y - p1.y)]
  · rintro ⟨hx, hy⟩
    have : elemCx Real.sqrt p1 p2 ^ 2 + elemCy Real.sqrt p1 p2 ^ 2 = 0 := by
      rw [hxy, hx, hy]
      simp
    linarith

/-- The square of `den` is `1 - Cz²`. -/
theorem elemDen_sq (p1 p2 : Point ℝ) (h : p1 ≠ p2) :
    elemDen Real.sqrt p1 p2 ^ 2 = 1 - elemCz Real.sqrt p1 p2 ^ 2 := by
  have := elemCz_sq_le_one p1 p2 h
  unfold elemDen
  simp only
  rw [Real.sq_sqrt (by nlinarith)]
  ring

/-- In the general branch `den` is positive. -/
theorem elemDen_pos (p1 p2 : Point ℝ) (h : p1 ≠ p2) (hz : |elemCz Real.sqrt p1 p2| ≠ 1) :
    0 < elemDen Real.sqrt p1 p2 := by
  have hle := elemCz_sq_le_one p1 p2 h
  have hne : elemCz Real.sqrt p1 p2 ^ 2 ≠ 1 := fun h1 =>
    hz ((abs_eq_one_iff_sq _).mpr h1)
  have hlt : elemCz Real.sqrt p1 p2 ^ 2 < 1 := lt_of_le_of_ne hle hne
  unfold elemDen
  simp only
  apply Real.sqrt_pos.mpr
  nlinarith

/-- The roll acts as a rotation about the local X axis, in either branch. -/
theorem toMatrix_roll (p1 p2 : Point ℝ) (roll : ℝ) :
    toMatrix (CoorTransform Real.sqrt Real.cos Real.sin p1 p2 roll) =
      Rx Real.cos Real.sin roll *
        toMatrix (CoorTransform Real.sqrt Real.cos Real.sin p1 p2 0) := by
  by_cases hz : |elemCz Real.sqrt p1 p2| = 1
  · rw [toMatrix_vertical _ _ _ _ _ _ hz, toMatrix_vertical _ _ _ _ _ _ hz, Rx,
      Matrix.mul_fin_three]
    apply mat3_eq <;> simp <;> ring
  · rw [toMatrix_general _ _ _ _ _ _ hz, toMatrix_general _ _ _ _ _ _ hz, Rx,
      Matrix.mul_fin_three]
    apply mat3_eq <;> simp <;> ring

/-- The rotation `Rx` is orthonormal. -/
theorem Rx_orthonormal (r : ℝ) :
    Rx Real.cos Real.sin r * (Rx Real.cos Real.sin r).transpose = 1 := by
  have h := Real.sin_sq_add_cos_sq r
  rw [Rx, transpose3, Matrix.mul_fin_three, Matrix.one_fin_three]
  apply mat3_eq <;> ring_nf <;> nlinarith

/-- The general-branch matrix without roll is orthonormal, as an identity
between the direction cosines and `den`. -/
theorem general_zero_orthonormal (Cx Cy Cz den : ℝ) (hne : den ≠ 0)
    (hu : Cx ^ 2 + Cy ^ 2 + Cz ^ 2 = 1) (hd : den ^ 2 = 1 - Cz ^ 2) :
    !![Cx, Cy, Cz;
       (-Cx * Cz * 0 - Cy * 1) / den, (-Cy * Cz * 0 + Cx * 1) / den, 0 * den;
       (-Cx * Cz * 1 + Cy * 0) / den, (-Cy * Cz * 1 - Cx * 0) / den, 1 * den] *
    (!![Cx, Cy, Cz;
       (-Cx * Cz * 0 - Cy * 1) / den, (-Cy * Cz * 0 + Cx * 1) / den, 0 * den;
       (-Cx * Cz * 1 + Cy * 0) / den, (-Cy * Cz * 1 - Cx * 0) / den,
       1 * den]).transpose = 1 := by
  have hxy : Cx ^ 2 + Cy ^ 2 = den ^ 2 := by linarith
  rw [transpose3, Matrix.mul_fin_three, Matrix.one_fin_three]
  apply mat3_eq
  · linarith
  · field_simp; ring
  · field_simp; linear_combination (-Cz * den) * hxy
  · field_simp; ring
  · field_simp; linear_combination hxy
  · field_simp; ring
  · field_simp; linear_combination (-Cz * den) * hxy
  · field_simp; ring
  · field_simp; linear_combination (Cz ^ 2) * hxy + den ^ 2 * hd

/-- The vertical-branch matrix without roll is orthonormal. -/
theorem vertical_zero_orthonormal (Cz : ℝ) (hz : Cz ^ 2 = 1) :
    !![0, 0, Cz; -Cz * 0, 1, 0; -Cz * 1, -0, 0] *
      (!![0, 0, Cz; -Cz * 0, 1, 0; -Cz * 1, -0, 0]).transpose = 1 := by
  rw [transpose3, Matrix.mul_fin_three, Matrix.one_fin_three]
  apply mat3_eq <;> ring_nf <;> linarith

/-- Without roll the matrix is orthonormal. -/
theorem toMatrix_zero_orthonormal (p1 p2 : Point ℝ) (h : p1 ≠ p2) :
    toMatrix (CoorTransform Real.sqrt Real.cos Real.sin p1 p2 0) *
      (toMatrix (CoorTransform Real.sqrt Real.cos Real.sin p1 p2 0)).transpose = 1 := by
  by_cases hz : |elemCz Real.sqrt p1 p2| = 1
  · rw [toMatrix_vertical _ _ _ _ _ _ hz, Real.cos_zero, Real.sin_zero]
    exact vertical_zero_orthonormal _ ((abs_eq_one_iff_sq _).mp hz)
  · rw [toMatrix_general _ _ _ _ _ _ hz, Real.cos_zero, Real.sin_zero]
    exact general_zero_orthonormal _ _ _ _ (ne_of_gt (elemDen_pos p1 p2 h hz))
      (dircos_unit p1 p2 h) (elemDen_sq p1 p2 h)

/-- The matrix of `CoorTransform` is orthonormal. -/
theorem toMatrix_orthonormal (p1 p2 : Point ℝ) (roll : ℝ) (h : p1 ≠ p2) :
    toMatrix (CoorTransform Real.sqrt Real.cos Real.sin p1 p2 roll) *
      (toMatrix (CoorTransform Real.sqrt Real.cos Real.sin p1 p2 roll)).transpose = 1 := by
  rw [toMatrix_roll, Matrix.transpose_mul, Matrix.mul_assoc,
    ← Matrix.mul_assoc (toMatrix _), toMatrix_zero_orthonormal p1 p2 h, Matrix.one_mul,
    Rx_orthonormal]

/-- The length of an element parallel to the global Z axis. -/
theorem elemL_vertical (p1 p2 : Point ℝ) (hx : p1.x = p2.x) (hy : p1.y = p2.y) :
    elemL Real.sqrt p1 p2 = |p2.z - p1.z| := by
  unfold elemL
  rw [hx, hy, sub_self]
  simp [Real.sqrt_sq_eq_abs]

/-- The third direction cosine of an element parallel to the global Z axis. -/
theorem elemCz_vertical (p1 p2 : Point ℝ) (hx : p1.x = p2.x) (hy : p1.y = p2.y)
    (hz : p1.z ≠ p2.z) :
    elemCz Real.sqrt p1 p2 = if p2.z > p1.z then 1 else -1 := by
  unfold elemCz
  rw [elemL_vertical p1 p2 hx hy]
  split_ifs with hgt
  · have hpos : 0 < p2.z - p1.z := by linarith
    rw [abs_of_pos hpos, div_self (ne_of_gt hpos)]
  · have hneg : p2.z - p1.z < 0 := by
      rcases lt_or_gt_of_ne hz with h1 | h1
      · exact absurd h1 hgt
      · linarith
    rw [abs_of_neg hneg, div_neg, div_self (ne_of_lt hneg)]

/-- The direction cosines and `den` of an element along the positive global X axis. -/
theorem dircos_along_x (p1 p2 : Point ℝ) (hx : p1.x < p2.x) (hy : p1.y = p2.y)
    (hz : p1.z = p2.z) :
    elemCx Real.sqrt p1 p2 = 1 ∧ elemCy Real.sqrt p1 p2 = 0 ∧
      elemCz Real.sqrt p1 p2 = 0 ∧ elemDen Real.sqrt p1 p2 = 1 := by
  have hpos : 0 < p2.x - p1.x := by linarith
  have hL : elemL Real.sqrt p1 p2 = p2.x - p1.x := by
    unfold elemL
    rw [hy, hz, sub_self]
    simp [Real.sqrt_sq_eq_abs, abs_of_pos hpos]
  have hCz : elemCz Real.sqrt p1 p2 = 0 := by
    unfold elemCz
    rw [hz, sub_self, zero_div]
  refine ⟨?_, ?_, hCz, ?_⟩
  · unfold elemCx
    rw [hL, div_self (ne_of_gt hpos)]
  · unfold elemCy
    rw [hy, sub_self, zero_div]
  · unfold elemDen
    simp [hCz]

/-- The first row of the outputs is the vector of direction cosines. -/
theorem first_row_eq_dircos (p1 p2 : Point ℝ) (roll : ℝ) (h : p1 ≠ p2) :
    (FromFrame3dd Real.sqrt Real.cos Real.sin p1 p2 roll).t1 = elemCx Real.sqrt p1 p2 ∧
      (FromFrame3dd Real.sqrt Real.cos Real.sin p1 p2 roll).t2 = elemCy Real.sqrt p1 p2 ∧
      (FromFrame3dd Real.sqrt Real.cos Real.sin p1 p2 roll).t3 = elemCz Real.sqrt p1 p2 := by
  by_cases hz : |elemCz Real.sqrt p1 p2| = 1
  · obtain ⟨hx, hy⟩ := (abs_elemCz_eq_one_iff p1 p2 h).mp hz
    rw [FromFrame3dd_vertical _ _ _ _ _ _ hz]
    refine ⟨?_, ?_, rfl⟩
    · simp [elemCx, hx]
    · simp [elemCy, hy]
  · rw [FromFrame3dd_general _ _ _ _ _ _ hz]
    exact ⟨rfl, rfl, rfl⟩

/-- The product that `Transform` computes sends the direction cosines to the
first unit vector. -/
theorem Transform_dircos (p1 p2 : Point ℝ) (roll : ℝ) (h : p1 ≠ p2) :
    Transform (CoorTransform Real.sqrt Real.cos Real.sin p1 p2 roll)
        ⟨elemCx Real.sqrt p1 p2, elemCy Real.sqrt p1 p2, elemCz Real.sqrt p1 p2⟩ =
      ⟨1, 0, 0⟩ := by
  have hu := dircos_unit p1 p2 h
  by_cases hz : |elemCz Real.sqrt p1 p2| = 1
  · obtain ⟨hx, hy⟩ := (abs_elemCz_eq_one_iff p1 p2 h).mp hz
    have hsq := (abs_eq_one_iff_sq _).mp hz
    have hCx : elemCx Real.sqrt p1 p2 = 0 := by simp [elemCx, hx]
    have hCy : elemCy Real.sqrt p1 p2 = 0 := by simp [elemCy, hy]
    rw [CoorTransform_eq, FromFrame3dd_vertical _ _ _ _ _ _ hz, hCx, hCy]
    simp only [Transform, at2, List.getD_cons_zero, List.getD_cons_succ, Point.mk.injEq]
    refine ⟨?_, ?_, ?_⟩
    · linarith
    · ring
    · ring
  · have hd := elemDen_pos p1 p2 h hz
    have hd2 := elemDen_sq p1 p2 h
    have hne : elemDen Real.sqrt p1 p2 ≠ 0 := ne_of_gt hd
    have hxy : elemCx Real.sqrt p1 p2 ^ 2 + elemCy Real.sqrt p1 p2 ^ 2 =
        elemDen Real.sqrt p1 p2 ^ 2 := by linarith
    rw [CoorTransform_eq, FromFrame3dd_general _ _ _ _ _ _ hz]
    simp only [Transform, at2, List.getD_cons_zero, List.getD_cons_succ, Point.mk.injEq]
    refine ⟨?_, ?_, ?_⟩
    · linarith
    · field_simp
      linear_combination
        (-elemCz Real.sqrt p1 p2 * Real.sin roll) * hxy
    · field_simp
      linear_combination
        (-elemCz Real.sqrt p1 p2 * Real.cos roll) * hxy

/-- The point computed for an element pointing up the global Z axis, rolled by `π/2`. -/
theorem Transform_up_half_pi (p1 p2 q : Point ℝ) (hx : p1.x = p2.x) (hy : p1.y = p2.y)
    (hz : p1.z < p2.z) :
    Transform (CoorTransform Real.sqrt Real.cos Real.sin p1 p2 (Real.pi / 2)) q =
      ⟨q.z, -q.x, -q.y⟩ := by
  have hCz := elemCz_vertical p1 p2 hx hy (ne_of_lt hz)
  rw [if_pos hz] at hCz
  have habs : |elemCz Real.sqrt p1 p2| = 1 := by
    rw [hCz]
    simp
  rw [CoorTransform_eq, FromFrame3dd_vertical _ _ _ _ _ _ habs, hCz]
  simp [Transform, at2]

/-- The product that `Transform` computes is homogeneous in the point. -/
theorem Transform_scale (a : List (List ℝ)) (k : ℝ) (v : Point ℝ) :
    Transform a ⟨k * v.x, k * v.y, k * v.z⟩ =
      ⟨k * (Transform a v).x, k * (Transform a v).y, k * (Transform a v).z⟩ := by
  simp only [Transform, Point.mk.injEq]
  exact ⟨by ring, by ring, by ring⟩

/-- The vector from `p1` to `p2` is the length times the direction cosines. -/
theorem axis_eq_length_mul_dircos (p1 p2 : Point ℝ) (h : p1 ≠ p2) :
    (⟨p2.x - p1.x, p2.y - p1.y, p2.z - p1.z⟩ : Point ℝ) =
      ⟨elemL Real.sqrt p1 p2 * elemCx Real.sqrt p1 p2,
        elemL Real.sqrt p1 p2 * elemCy Real.sqrt p1 p2,
        elemL Real.sqrt p1 p2 * elemCz Real.sqrt p1 p2⟩ := by
  have hL : elemL Real.sqrt p1 p2 ≠ 0 := ne_of_gt (elemL_pos p1 p2 h)
  simp only [elemCx, elemCy, elemCz, Point.mk.injEq]
  refine ⟨?_, ?_, ?_⟩ <;> field_simp

/-- The product that `Transform` computes sends the element's own axis to the
local X axis, scaled by the length. -/
theorem Transform_axis (p1 p2 : Point ℝ) (roll : ℝ) (h : p1 ≠ p2) :
    Transform (CoorTransform Real.sqrt Real.cos Real.sin p1 p2 roll)
        ⟨p2.x - p1.x, p2.y - p1.y, p2.z - p1.z⟩ =
      ⟨elemL Real.sqrt p1 p2, 0, 0⟩ := by
  rw [axis_eq_length_mul_dircos p1 p2 h]
  have hs := Transform_scale (CoorTransform Real.sqrt Real.cos Real.sin p1 p2 roll)
    (elemL Real.sqrt p1 p2)
    ⟨elemCx Real.sqrt p1 p2, elemCy Real.sqrt p1 p2, elemCz Real.sqrt p1 p2⟩
  simp only at hs
  rw [hs, Transform_dircos p1 p2 roll h]
  simp

/-- The third row of the outputs is the cross product of the first two rows. -/
theorem third_row_eq_cross (p1 p2 : Point ℝ) (roll : ℝ) (h : p1 ≠ p2) :
    (FromFrame3dd Real.sqrt Real.cos Real.sin p1 p2 roll).t7 =
        (FromFrame3dd Real.sqrt Real.cos Real.sin p1 p2 roll).t2 *
            (FromFrame3dd Real.sqrt Real.cos Real.sin p1 p2 roll).t6 -
          (FromFrame3dd Real.sqrt Real.cos Real.sin p1 p2 roll).t3 *
            (FromFrame3dd Real.sqrt Real.cos Real.sin p1 p2 roll).t5 ∧
      (FromFrame3dd Real.sqrt Real.cos Real.sin p1 p2 roll).t8 =
        (FromFrame3dd Real.sqrt Real.cos Real.sin p1 p2 roll).t3 *
            (FromFrame3dd Real.sqrt Real.cos Real.sin p1 p2 roll).t4 -
          (FromFrame3dd Real.sqrt Real.cos Real.sin p1 p2 roll).t1 *
            (FromFrame3dd Real.sqrt Real.cos Real.sin p1 p2 roll).t6 ∧
      (FromFrame3dd Real.sqrt Real.cos Real.sin p1 p2 roll).t9 =
        (FromFrame3dd Real.sqrt Real.cos Real.sin p1 p2 roll).t1 *
            (FromFrame3dd Real.sqrt Real.cos Real.sin p1 p2 roll).t5 -
          (FromFrame3dd Real.sqrt Real.cos Real.sin p1 p2 roll).t2 *
            (FromFrame3dd Real.sqrt Real.cos Real.sin p1 p2 roll).t4 := by
  by_cases hz : |elemCz Real.sqrt p1 p2| = 1
  · have hsq := (abs_eq_one_iff_sq _).mp hz
    rw [FromFrame3dd_vertical _ _ _ _ _ _ hz]
    refine ⟨?_, ?_, ?_⟩
    · ring
    · linear_combination (Real.sin roll) * hsq
    · ring
  · have hd := elemDen_pos p1 p2 h hz
    have hd2 := elemDen_sq p1 p2 h
    have hu := dircos_unit p1 p2 h
    have hne : elemDen Real.sqrt p1 p2 ≠ 0 := ne_of_gt hd
    have hxy : elemCx Real.sqrt p1 p2 ^ 2 + elemCy Real.sqrt p1 p2 ^ 2 =
        elemDen Real.sqrt p1 p2 ^ 2 := by linarith
    rw [FromFrame3dd_general _ _ _ _ _ _ hz]
    refine ⟨?_, ?_, ?_⟩
    · field_simp
      linear_combination (-elemCy Real.sqrt p1 p2 * Real.sin roll) * hd2
    · field_simp
      linear_combination (elemCx Real.sqrt p1 p2 * Real.sin roll) * hd2
    · field_simp
      linear_combination (-Real.cos roll) * hxy

/-- A 3×3 matrix whose third row is the cross product of the first two and has
unit length has determinant `1`. -/
theorem det_eq_one_of_cross (t1 t2 t3 t4 t5 t6 t7 t8 t9 : ℝ)
    (h7 : t7 = t2 * t6 - t3 * t5) (h8 : t8 = t3 * t4 - t1 * t6)
    (h9 : t9 = t1 * t5 - t2 * t4) (hn : t7 * t7 + t8 * t8 + t9 * t9 = 1) :
    Matrix.det !![t1, t2, t3; t4, t5, t6; t7, t8, t9] = 1 := by
  rw [Matrix.det_fin_three]
  simp
  linear_combination (-t7) * h7 + (-t8) * h8 + (-t9) * h9 + hn

/-- The third row of the matrix of `CoorTransform` is a unit vector. -/
theorem third_row_unit (p1 p2 : Point ℝ) (roll : ℝ) (h : p1 ≠ p2) :
    (FromFrame3dd Real.sqrt Real.cos Real.sin p1 p2 roll).t7 *
          (FromFrame3dd Real.sqrt Real.cos Real.sin p1 p2 roll).t7 +
        (FromFrame3dd Real.sqrt Real.cos Real.sin p1 p2 roll).t8 *
          (FromFrame3dd Real.sqrt Real.cos Real.sin p1 p2 roll).t8 +
        (FromFrame3dd Real.sqrt Real.cos Real.sin p1 p2 roll).t9 *
          (FromFrame3dd Real.sqrt Real.cos Real.sin p1 p2 roll).t9 = 1 := by
  have hM := toMatrix_orthonormal p1 p2 roll h
  have h22 := congrFun (congrFun hM 2) 2
  rw [CoorTransform_eq] at h22
  simpa [Matrix.mul_apply, Fin.sum_univ_three, toMatrix, at2] using h22

/-- The matrix of `CoorTransform` has determinant `1`. -/
theorem det_toMatrix (p1 p2 : Point ℝ) (roll : ℝ) (h : p1 ≠ p2) :
    Matrix.det (toMatrix (CoorTransform Real.sqrt Real.cos Real.sin p1 p2 roll)) = 1 := by
  obtain ⟨h7, h8, h9⟩ := third_row_eq_cross p1 p2 roll h
  rw [CoorTransform_eq, toMatrix_rows]
  exact det_eq_one_of_cross _ _ _ _ _ _ _ _ _ h7 h8 h9 (third_row_unit p1 p2 roll h)

/-- Rescaling the axis vector by `k > 0` rescales the length by `k`. -/
theorem elemL_scale (p1 p2 q1 q2 : Point ℝ) (k : ℝ) (hk : 0 < k)
    (hx : q2.x - q1.x = k * (p2.x - p1.x)) (hy : q2.y - q1.y = k * (p2.y - p1.y))
    (hz : q2.z - q1.z = k * (p2.z - p1.z)) :
    elemL Real.sqrt q1 q2 = k * elemL Real.sqrt p1 p2 := by
  unfold elemL
  rw [hx, hy, hz]
  have hsq : (k * (p2.x - p1.x)) ^ 2 + (k * (p2.y - p1.y)) ^ 2 + (k * (p2.z - p1.z)) ^ 2 =
      k ^ 2 * ((p2.x - p1.x) ^ 2 + (p2.y - p1.y) ^ 2 + (p2.z - p1.z) ^ 2) := by ring
  rw [hsq, Real.sqrt_mul (sq_nonneg k), Real.sqrt_sq (le_of_lt hk)]

/-- The direction cosines and `den` do not change when the element is moved or
its axis vector is rescaled by `k > 0`. -/
theorem dircos_scale (p1 p2 q1 q2 : Point ℝ) (k : ℝ) (h : p1 ≠ p2) (hk : 0 < k)
    (hx : q2.x - q1.x = k * (p2.x - p1.x)) (hy : q2.y - q1.y = k * (p2.y - p1.y))
    (hz : q2.z - q1.z = k * (p2.z - p1.z)) :
    elemCx Real.sqrt q1 q2 = elemCx Real.sqrt p1 p2 ∧
      elemCy Real.sqrt q1 q2 = elemCy Real.sqrt p1 p2 ∧
      elemCz Real.sqrt q1 q2 = elemCz Real.sqrt p1 p2 ∧
      elemDen Real.sqrt q1 q2 = elemDen Real.sqrt p1 p2 := by
  have hL := elemL_scale p1 p2 q1 q2 k hk hx hy hz
  have hLp : elemL Real.sqrt p1 p2 ≠ 0 := ne_of_gt (elemL_pos p1 p2 h)
  have hk0 : k ≠ 0 := ne_of_gt hk
  have hCz : elemCz Real.sqrt q1 q2 = elemCz Real.sqrt p1 p2 := by
    unfold elemCz
    rw [hL, hz]
    field_simp
    ring
  refine ⟨?_, ?_, hCz, ?_⟩
  · unfold elemCx
    rw [hL, hx]
    field_simp
    ring
  · unfold elemCy
    rw [hL, hy]
    field_simp
    ring
  · unfold elemDen
    rw [hCz]

/-- The outputs of `FromFrame3dd` depend on the end points only through the
direction cosines and `den`. -/
theorem FromFrame3dd_congr (p1 p2 q1 q2 : Point ℝ) (roll : ℝ)
    (hCx : elemCx Real.sqrt q1 q2 = elemCx Real.sqrt p1 p2)
    (hCy : elemCy Real.sqrt q1 q2 = elemCy Real.sqrt p1 p2)
    (hCz : elemCz Real.sqrt q1 q2 = elemCz Real.sqrt p1 p2)
    (hden : elemDen Real.sqrt q1 q2 = elemDen Real.sqrt p1 p2) :
    FromFrame3dd Real.sqrt Real.cos Real.sin q1 q2 roll =
      FromFrame3dd Real.sqrt Real.cos Real.sin p1 p2 roll := by
  simp only [FromFrame3dd, hCx, hCy, hCz, hden]

end Geometry

/-! ## The claims -/

section Claims

/-- C1: in exact real arithmetic, for every pair of distinct points `p1`, `p2`
and every roll angle, the matrix `M = CoorTransform(p1, p2, roll)` is
orthonormal: `M * Mᵀ = I`, that is, every row is a unit vector and two distinct
rows are orthogonal.  The proof covers the vertical and the general branch. -/
theorem C1_orthonormal (p1 p2 : Point ℝ) (roll : ℝ) (h : p1 ≠ p2) :
    toMatrix (CoorTransform Real.sqrt Real.cos Real.sin p1 p2 roll) *
        (toMatrix (CoorTransform Real.sqrt Real.cos Real.sin p1 p2 roll)).transpose = 1 ∧
      ∀ i j : Fin 3,
        ∑ k : Fin 3,
            at2 (CoorTransform Real.sqrt Real.cos Real.sin p1 p2 roll) i.val k.val *
              at2 (CoorTransform Real.sqrt Real.cos Real.sin p1 p2 roll) j.val k.val =
          if i = j then 1 else 0 := by
  have hM := toMatrix_orthonormal p1 p2 roll h
  refine ⟨hM, fun i j => ?_⟩
  have hij := congrFun (congrFun hM i) j
  simpa [Matrix.mul_apply, toMatrix, Matrix.one_apply] using hij

/-- C1, at an element of the general branch: from `(0,0,0)` to `(1,2,2)`, roll `1`. -/
theorem C1_orthonormal_witness :
    (⟨0, 0, 0⟩ : Point ℝ) ≠ ⟨1, 2, 2⟩ ∧
      (toMatrix (CoorTransform Real.sqrt Real.cos Real.sin ⟨0, 0, 0⟩ ⟨1, 2, 2⟩ 1) *
          (toMatrix
            (CoorTransform Real.sqrt Real.cos Real.sin ⟨0, 0, 0⟩ ⟨1, 2, 2⟩ 1)).transpose = 1 ∧
        ∀ i j : Fin 3,
          ∑ k : Fin 3,
              at2 (CoorTransform Real.sqrt Real.cos Real.sin ⟨0, 0, 0⟩ ⟨1, 2, 2⟩ 1) i.val k.val *
                at2 (CoorTransform Real.sqrt Real.cos Real.sin ⟨0, 0, 0⟩ ⟨1, 2, 2⟩ 1) j.val
                  k.val =
            if i = j then 1 else 0) :=
  ⟨by simp, C1_orthonormal ⟨0, 0, 0⟩ ⟨1, 2, 2⟩ 1 (by simp)⟩

/-- C2: in exact real arithmetic, for an element parallel to the global Z axis
(`p1.x = p2.x`, `p1.y = p2.y`, `p1.z ≠ p2.z`) and every roll, `FromFrame3dd`
takes the degenerate branch (`|Cz| = 1`) and yields `t3 = Cz`,
`t4 = -Cz*sin(roll)`, `t5 = cos(roll)`, `t7 = -Cz*cos(roll)`, `t8 = -sin(roll)`,
`t1 = t2 = t6 = t9 = 0`, where `Cz` is `1` if `p2.z > p1.z` and `-1` otherwise. -/
theorem C2_vertical_branch (p1 p2 : Point ℝ) (roll : ℝ) (hx : p1.x = p2.x)
    (hy : p1.y = p2.y) (hz : p1.z ≠ p2.z) :
    |elemCz Real.sqrt p1 p2| = 1 ∧
      elemCz Real.sqrt p1 p2 = (if p2.z > p1.z then 1 else -1) ∧
      FromFrame3dd Real.sqrt Real.cos Real.sin p1 p2 roll =
        { t1 := 0
          t2 := 0
          t3 := if p2.z > p1.z then 1 else -1
          t4 := -(if p2.z > p1.z then 1 else -1) * Real.sin roll
          t5 := Real.cos roll
          t6 := 0
          t7 := -(if p2.z > p1.z then 1 else -1) * Real.cos roll
          t8 := -Real.sin roll
          t9 := 0 } := by
  have hCz := elemCz_vertical p1 p2 hx hy hz
  have habs : |elemCz Real.sqrt p1 p2| = 1 := by
    rw [hCz]
    split_ifs <;> simp
  refine ⟨habs, hCz, ?_⟩
  rw [FromFrame3dd_vertical _ _ _ _ _ _ habs, hCz]

/-- C2, at the element from `(0,0,0)` to `(0,0,5)` with roll `π/2`:
`t3 = 1`, `t4 = -1`, `t5 = 0`, `t7 = 0`, `t8 = -1` and all other outputs `0`. -/
theorem C2_vertical_branch_witness :
    ((⟨0, 0, 0⟩ : Point ℝ).x = (⟨0, 0, 5⟩ : Point ℝ).x ∧
      (⟨0, 0, 0⟩ : Point ℝ).y = (⟨0, 0, 5⟩ : Point ℝ).y ∧
      (⟨0, 0, 0⟩ : Point ℝ).z ≠ (⟨0, 0, 5⟩ : Point ℝ).z) ∧
      FromFrame3dd Real.sqrt Real.cos Real.sin ⟨0, 0, 0⟩ ⟨0, 0, 5⟩ (Real.pi / 2) =
        ⟨0, 0, 1, -1, 0, 0, 0, -1, 0⟩ := by
  have h := C2_vertical_branch ⟨0, 0, 0⟩ ⟨0, 0, 5⟩ (Real.pi / 2) rfl rfl (by simp)
  refine ⟨⟨rfl, rfl, by simp⟩, ?_⟩
  rw [h.2.2]
  simp

/-- C3: in exact real arithmetic, for distinct points the degenerate branch is
taken (`|Cz| = 1`) if and only if the element is parallel to the global Z axis
(`p1.x = p2.x` and `p1.y = p2.y`); and whenever the x or the y coordinates
differ, `FromFrame3dd` takes the general branch and yields, with
`(Cx, Cy, Cz) = (p2 - p1) / |p2 - p1|`, `Cp = cos(roll)`, `Sp = sin(roll)` and
`den = sqrt(1 - Cz^2)`: `t1 = Cx`, `t2 = Cy`, `t3 = Cz`,
`t4 = (-Cx*Cz*Sp - Cy*Cp)/den`, `t5 = (-Cy*Cz*Sp + Cx*Cp)/den`, `t6 = Sp*den`,
`t7 = (-Cx*Cz*Cp + Cy*Sp)/den`, `t8 = (-Cy*Cz*Cp - Cx*Sp)/den`, `t9 = Cp*den`. -/
theorem C3_general_branch (p1 p2 : Point ℝ) (roll : ℝ) (h : p1 ≠ p2) :
    (|elemCz Real.sqrt p1 p2| = 1 ↔ p1.x = p2.x ∧ p1.y = p2.y) ∧
      ((p1.x ≠ p2.x ∨ p1.y ≠ p2.y) →
        |elemCz Real.sqrt p1 p2| ≠ 1 ∧
          FromFrame3dd Real.sqrt Real.cos Real.sin p1 p2 roll =
            (let L := Real.sqrt ((p2.x - p1.x) ^ 2 + (p2.y - p1.y) ^ 2 + (p2.z - p1.z) ^ 2)
             let Cx := (p2.x - p1.x) / L
             let Cy := (p2.y - p1.y) / L
             let Cz := (p2.z - p1.z) / L
             let Cp := Real.cos roll
             let Sp := Real.sin roll
             let den := Real.sqrt (1 - Cz ^ 2)
             { t1 := Cx
               t2 := Cy
               t3 := Cz
               t4 := (-Cx * Cz * Sp - Cy * Cp) / den
               t5 := (-Cy * Cz * Sp + Cx * Cp) / den
               t6 := Sp * den
               t7 := (-Cx * Cz * Cp + Cy * Sp) / den
               t8 := (-Cy * Cz * Cp - Cx * Sp) / den
               t9 := Cp * den })) := by
  have hiff := abs_elemCz_eq_one_iff p1 p2 h
  refine ⟨hiff, fun hxy => ?_⟩
  have hne : |elemCz Real.sqrt p1 p2| ≠ 1 := by
    intro habs
    have hp := hiff.mp habs
    rcases hxy with hx | hy
    · exact hx hp.1
    · exact hy hp.2
  refine ⟨hne, ?_⟩
  rw [FromFrame3dd_general _ _ _ _ _ _ hne]
  simp only [elemCx, elemCy, elemCz, elemDen, elemL, sq]

/-- C3, at the element from `(0,0,0)` to `(3,0,4)` with roll `0`: the branch
test fails and the outputs are those of the general formula, which at this
input come to `t1 = 3/5`, `t3 = 4/5`, `t5 = 1`, `t7 = -4/5`, `t9 = 3/5`. -/
theorem C3_general_branch_witness :
    ((⟨0, 0, 0⟩ : Point ℝ) ≠ ⟨3, 0, 4⟩ ∧
      ((⟨0, 0, 0⟩ : Point ℝ).x ≠ (⟨3, 0, 4⟩ : Point ℝ).x ∨
        (⟨0, 0, 0⟩ : Point ℝ).y ≠ (⟨3, 0, 4⟩ : Point ℝ).y)) ∧
      |elemCz Real.sqrt (⟨0, 0, 0⟩ : Point ℝ) ⟨3, 0, 4⟩| ≠ 1 ∧
      FromFrame3dd Real.sqrt Real.cos Real.sin ⟨0, 0, 0⟩ ⟨3, 0, 4⟩ 0 =
        ⟨3 / 5, 0, 4 / 5, 0, 1, 0, -(4 / 5), 0, 3 / 5⟩ := by
  have h := (C3_general_branch ⟨0, 0, 0⟩ ⟨3, 0, 4⟩ 0 (by simp)).2 (Or.inl (by simp))
  refine ⟨⟨by simp, Or.inl (by simp)⟩, h.1, ?_⟩
  rw [h.2]
  have h25 : Real.sqrt ((3 : ℝ) ^ 2 + 4 ^ 2) = 5 := by
    rw [show (3 : ℝ) ^ 2 + 4 ^ 2 = 5 ^ 2 by norm_num]
    exact Real.sqrt_sq (by norm_num)
  have h35 : Real.sqrt (1 - ((4 : ℝ) / 5) ^ 2) = 3 / 5 := by
    rw [show 1 - ((4 : ℝ) / 5) ^ 2 = (3 / 5) ^ 2 by norm_num]
    exact Real.sqrt_sq (by norm_num)
  simp [h25, h35]
  norm_num

/-- C4: in exact real arithmetic, for an element pointing straight up the global
Z axis (`p1.x = p2.x`, `p1.y = p2.y`, `p2.z > p1.z`) with roll `π/2`, the point
that `Transform` computes for the input `(x, y, z)` with
`M = CoorTransform(p1, p2, roll)` is `(z, -x, -y)`. -/
theorem C4_transform_vertical (p1 p2 q : Point ℝ) (hx : p1.x = p2.x) (hy : p1.y = p2.y)
    (hz : p1.z < p2.z) :
    Transform (CoorTransform Real.sqrt Real.cos Real.sin p1 p2 (Real.pi / 2)) q =
      ⟨q.z, -q.x, -q.y⟩ :=
  Transform_up_half_pi p1 p2 q hx hy hz

/-- C4, at the input of the program's own `main`: the element from `(0,0,0)` to
`(0,0,5)`, roll `π/2`, transforms the point `(1,0,0)` to `(0,-1,0)`. -/
theorem C4_transform_vertical_witness :
    ((⟨0, 0, 0⟩ : Point ℝ).x = (⟨0, 0, 5⟩ : Point ℝ).x ∧
      (⟨0, 0, 0⟩ : Point ℝ).y = (⟨0, 0, 5⟩ : Point ℝ).y ∧
      (⟨0, 0, 0⟩ : Point ℝ).z < (⟨0, 0, 5⟩ : Point ℝ).z) ∧
      main Real.sqrt Real.cos Real.sin Real.pi = ⟨0, -1, 0⟩ := by
  refine ⟨⟨rfl, rfl, by simp⟩, ?_⟩
  have h := C4_transform_vertical ⟨0, 0, 0⟩ ⟨0, 0, 5⟩ ⟨1, 0, 0⟩ rfl rfl (by simp)
  simpa [main] using h

/-- C5: in exact real arithmetic, for an element along the positive global X
axis (`p2.x > p1.x`, `p1.y = p2.y`, `p1.z = p2.z`) and every roll,
`CoorTransform` returns `[[1,0,0],[0,cos(roll),sin(roll)],[0,-sin(roll),cos(roll)]]`;
for roll `0` it returns the identity matrix. -/
theorem C5_along_x (p1 p2 : Point ℝ) (roll : ℝ) (hx : p1.x < p2.x) (hy : p1.y = p2.y)
    (hz : p1.z = p2.z) :
    CoorTransform Real.sqrt Real.cos Real.sin p1 p2 roll =
        [[1, 0, 0], [0, Real.cos roll, Real.sin roll], [0, -Real.sin roll, Real.cos roll]] ∧
      CoorTransform Real.sqrt Real.cos Real.sin p1 p2 0 = [[1, 0, 0], [0, 1, 0], [0, 0, 1]] := by
  obtain ⟨hCx, hCy, hCz, hden⟩ := dircos_along_x p1 p2 hx hy hz
  have hne : |elemCz Real.sqrt p1 p2| ≠ 1 := by
    rw [hCz]
    simp
  constructor
  · rw [CoorTransform_eq, FromFrame3dd_general _ _ _ _ _ _ hne, hCx, hCy, hCz, hden]
    simp
  · rw [CoorTransform_eq, FromFrame3dd_general _ _ _ _ _ _ hne, hCx, hCy, hCz, hden]
    simp

/-- C5, at the element from `(0,0,0)` to `(1,0,0)` with roll `0`: the identity. -/
theorem C5_along_x_witness :
    ((⟨0, 0, 0⟩ : Point ℝ).x < (⟨1, 0, 0⟩ : Point ℝ).x ∧
      (⟨0, 0, 0⟩ : Point ℝ).y = (⟨1, 0, 0⟩ : Point ℝ).y ∧
      (⟨0, 0, 0⟩ : Point ℝ).z = (⟨1, 0, 0⟩ : Point ℝ).z) ∧
      CoorTransform Real.sqrt Real.cos Real.sin (⟨0, 0, 0⟩ : Point ℝ) ⟨1, 0, 0⟩ 0 =
        [[1, 0, 0], [0, 1, 0], [0, 0, 1]] :=
  ⟨⟨by simp, rfl, rfl⟩, (C5_along_x ⟨0, 0, 0⟩ ⟨1, 0, 0⟩ 0 (by simp) rfl rfl).2⟩

/-- C6, refuted as stated: for the element from `(0,0,0)` to `(0,0,5)` with roll
`π/2` (the input of `main`), the product `M * (1,0,0)` that `Transform`
computes is `(0,-1,0)`, while the direction cosines are `(0,0,1)`: the product
is neither the direction cosines nor their negation. -/
theorem C6_counterexample :
    (⟨0, 0, 0⟩ : Point ℝ) ≠ ⟨0, 0, 5⟩ ∧
      Transform (CoorTransform Real.sqrt Real.cos Real.sin ⟨0, 0, 0⟩ ⟨0, 0, 5⟩ (Real.pi / 2))
          ⟨1, 0, 0⟩ = ⟨0, -1, 0⟩ ∧
      (⟨elemCx Real.sqrt ⟨0, 0, 0⟩ ⟨0, 0, 5⟩, elemCy Real.sqrt ⟨0, 0, 0⟩ ⟨0, 0, 5⟩,
          elemCz Real.sqrt ⟨0, 0, 0⟩ ⟨0, 0, 5⟩⟩ : Point ℝ) = ⟨0, 0, 1⟩ ∧
      ¬(Transform (CoorTransform Real.sqrt Real.cos Real.sin ⟨0, 0, 0⟩ ⟨0, 0, 5⟩ (Real.pi / 2))
            ⟨1, 0, 0⟩ =
          ⟨elemCx Real.sqrt ⟨0, 0, 0⟩ ⟨0, 0, 5⟩, elemCy Real.sqrt ⟨0, 0, 0⟩ ⟨0, 0, 5⟩,
            elemCz Real.sqrt ⟨0, 0, 0⟩ ⟨0, 0, 5⟩⟩ ∨
        Transform (CoorTransform Real.sqrt Real.cos Real.sin ⟨0, 0, 0⟩ ⟨0, 0, 5⟩ (Real.pi / 2))
            ⟨1, 0, 0⟩ =
          ⟨-elemCx Real.sqrt ⟨0, 0, 0⟩ ⟨0, 0, 5⟩, -elemCy Real.sqrt ⟨0, 0, 0⟩ ⟨0, 0, 5⟩,
            -elemCz Real.sqrt ⟨0, 0, 0⟩ ⟨0, 0, 5⟩⟩) := by
  have hT := Transform_up_half_pi ⟨0, 0, 0⟩ ⟨0, 0, 5⟩ ⟨1, 0, 0⟩ rfl rfl (by simp)
  have hCz := elemCz_vertical ⟨0, 0, 0⟩ ⟨0, 0, 5⟩ rfl rfl (by simp)
  have hCx : elemCx Real.sqrt (⟨0, 0, 0⟩ : Point ℝ) ⟨0, 0, 5⟩ = 0 := by simp [elemCx]
  have hCy : elemCy Real.sqrt (⟨0, 0, 0⟩ : Point ℝ) ⟨0, 0, 5⟩ = 0 := by simp [elemCy]
  rw [hT, hCz, hCx, hCy]
  simp

/-- C6, amended: for distinct `p1`, `p2` and every roll, with
`M = CoorTransform(p1, p2, roll)`, it is the transpose of `M` that sends the
local X-axis unit vector `(1,0,0)` to the direction cosines `(Cx, Cy, Cz)`
(they are the first row of `M`), and the product `M * p` that `Transform`
computes sends `(Cx, Cy, Cz)` to `(1,0,0)`. -/
theorem C6_transpose_unit_x (p1 p2 : Point ℝ) (roll : ℝ) (h : p1 ≠ p2) :
    Transform (List.transpose (CoorTransform Real.sqrt Real.cos Real.sin p1 p2 roll))
          ⟨1, 0, 0⟩ =
        ⟨elemCx Real.sqrt p1 p2, elemCy Real.sqrt p1 p2, elemCz Real.sqrt p1 p2⟩ ∧
      Transform (CoorTransform Real.sqrt Real.cos Real.sin p1 p2 roll)
          ⟨elemCx Real.sqrt p1 p2, elemCy Real.sqrt p1 p2, elemCz Real.sqrt p1 p2⟩ =
        ⟨1, 0, 0⟩ := by
  refine ⟨?_, Transform_dircos p1 p2 roll h⟩
  obtain ⟨h1, h2, h3⟩ := first_row_eq_dircos p1 p2 roll h
  rw [CoorTransform_eq, h1, h2, h3, transpose_rows]
  simp [Transform, at2]

/-- C6 amended, at the element from `(0,0,0)` to `(0,0,5)` with roll `π/2`. -/
theorem C6_transpose_unit_x_witness :
    (⟨0, 0, 0⟩ : Point ℝ) ≠ ⟨0, 0, 5⟩ ∧
      Transform
          (List.transpose
            (CoorTransform Real.sqrt Real.cos Real.sin ⟨0, 0, 0⟩ ⟨0, 0, 5⟩ (Real.pi / 2)))
          ⟨1, 0, 0⟩ =
        ⟨elemCx Real.sqrt ⟨0, 0, 0⟩ ⟨0, 0, 5⟩, elemCy Real.sqrt ⟨0, 0, 0⟩ ⟨0, 0, 5⟩,
          elemCz Real.sqrt ⟨0, 0, 0⟩ ⟨0, 0, 5⟩⟩ ∧
      Transform (CoorTransform Real.sqrt Real.cos Real.sin ⟨0, 0, 0⟩ ⟨0, 0, 5⟩ (Real.pi / 2))
          ⟨elemCx Real.sqrt ⟨0, 0, 0⟩ ⟨0, 0, 5⟩, elemCy Real.sqrt ⟨0, 0, 0⟩ ⟨0, 0, 5⟩,
            elemCz Real.sqrt ⟨0, 0, 0⟩ ⟨0, 0, 5⟩⟩ =
        ⟨1, 0, 0⟩ :=
  ⟨by simp, C6_transpose_unit_x ⟨0, 0, 0⟩ ⟨0, 0, 5⟩ (Real.pi / 2) (by simp)⟩

/-- C7, refuted as stated: for the zero-length element `p1 = p2 = (0,0,0)`
(so that `L = 0`) `CoorTransform` does not fail; it returns a container of three
rows of three entries, as for every other input. -/
theorem C7_counterexample :
    elemL Real.sqrt (⟨0, 0, 0⟩ : Point ℝ) ⟨0, 0, 0⟩ = 0 ∧
      (CoorTransform Real.sqrt Real.cos Real.sin (⟨0, 0, 0⟩ : Point ℝ) ⟨0, 0, 0⟩ 0).length = 3 ∧
      ∀ row ∈ CoorTransform Real.sqrt Real.cos Real.sin (⟨0, 0, 0⟩ : Point ℝ) ⟨0, 0, 0⟩ 0,
        row.length = 3 := by
  refine ⟨by simp [elemL], ?_, ?_⟩
  · rw [CoorTransform_eq]
    rfl
  · rw [CoorTransform_eq]
    simp

/-- C7, amended: when `p1 == p2` the length `L` is `0` and neither
`FromFrame3dd` nor `CoorTransform` checks for it: no failure is raised and
`CoorTransform` returns a container of three rows of three entries.  That the
points are distinct is a precondition left to the caller. -/
theorem C7_zero_length_not_rejected (p : Point ℝ) (roll : ℝ) :
    elemL Real.sqrt p p = 0 ∧
      (CoorTransform Real.sqrt Real.cos Real.sin p p roll).length = 3 ∧
      ∀ row ∈ CoorTransform Real.sqrt Real.cos Real.sin p p roll, row.length = 3 := by
  refine ⟨by simp [elemL], ?_, ?_⟩
  · rw [CoorTransform_eq]
    rfl
  · rw [CoorTransform_eq]
    simp

/-- C8: in exact real arithmetic, for distinct points no division by zero is
reachable in `FromFrame3dd`: the length `L` is strictly positive, `|Cz| ≤ 1` so
that `1 - Cz*Cz` is not negative, and whenever the general branch is taken
(`|Cz| ≠ 1`) the divisor `den = sqrt(1 - Cz*Cz)` is strictly positive. -/
theorem C8_no_division_by_zero (p1 p2 : Point ℝ) (h : p1 ≠ p2) :
    0 < elemL Real.sqrt p1 p2 ∧
      |elemCz Real.sqrt p1 p2| ≤ 1 ∧
      0 ≤ 1 - elemCz Real.sqrt p1 p2 * elemCz Real.sqrt p1 p2 ∧
      (|elemCz Real.sqrt p1 p2| ≠ 1 → 0 < elemDen Real.sqrt p1 p2) := by
  have hle := elemCz_sq_le_one p1 p2 h
  refine ⟨elemL_pos p1 p2 h, ?_, ?_, elemDen_pos p1 p2 h⟩
  · rw [← abs_one]
    exact sq_le_sq.mp (by simpa using hle)
  · nlinarith

/-- C8, at the element from `(0,0,0)` to `(3,0,4)`. -/
theorem C8_no_division_by_zero_witness :
    (⟨0, 0, 0⟩ : Point ℝ) ≠ ⟨3, 0, 4⟩ ∧
      0 < elemL Real.sqrt (⟨0, 0, 0⟩ : Point ℝ) ⟨3, 0, 4⟩ ∧
      |elemCz Real.sqrt (⟨0, 0, 0⟩ : Point ℝ) ⟨3, 0, 4⟩| ≤ 1 ∧
      0 ≤ 1 - elemCz Real.sqrt (⟨0, 0, 0⟩ : Point ℝ) ⟨3, 0, 4⟩ *
            elemCz Real.sqrt (⟨0, 0, 0⟩ : Point ℝ) ⟨3, 0, 4⟩ ∧
      (|elemCz Real.sqrt (⟨0, 0, 0⟩ : Point ℝ) ⟨3, 0, 4⟩| ≠ 1 →
        0 < elemDen Real.sqrt (⟨0, 0, 0⟩ : Point ℝ) ⟨3, 0, 4⟩) :=
  ⟨by simp, C8_no_division_by_zero ⟨0, 0, 0⟩ ⟨3, 0, 4⟩ (by simp)⟩

/-- C9: for every `p1`, `p2` and roll, over any scalars, `CoorTransform` returns
a container of exactly three rows of exactly three entries each, laid out
row-major from the nine outputs of `FromFrame3dd`: `a[i][j] = t(3*i + j + 1)`
for `i`, `j` in `{0,1,2}`; each of these nine reads is inside the container. -/
theorem C9_row_major {α : Type} [LinearOrderedField α] (sqrt cos sin : α → α)
    (p1 p2 : Point α) (roll : α) :
    (CoorTransform sqrt cos sin p1 p2 roll).length = 3 ∧
      (∀ row ∈ CoorTransform sqrt cos sin p1 p2 roll, row.length = 3) ∧
      ∀ i j : Fin 3,
        ((CoorTransform sqrt cos sin p1 p2 roll)[i.val]?).bind (fun row => row[j.val]?) =
            some ((FromFrame3dd sqrt cos sin p1 p2 roll).nth (3 * i.val + j.val + 1)) ∧
          at2 (CoorTransform sqrt cos sin p1 p2 roll) i.val j.val =
            (FromFrame3dd sqrt cos sin p1 p2 roll).nth (3 * i.val + j.val + 1) := by
  rw [CoorTransform_eq]
  refine ⟨rfl, by simp, fun i j => ?_⟩
  fin_cases i <;> fin_cases j <;> exact ⟨rfl, rfl⟩

/-- C10: in exact real arithmetic, the roll angle acts as a rotation about the
element's own (local X) axis: for distinct `p1`, `p2` and every roll,
`CoorTransform(p1, p2, roll) = Rx(roll) * CoorTransform(p1, p2, 0)` with
`Rx(r) = [[1,0,0],[0,cos r,sin r],[0,-sin r,cos r]]`, in either branch; and the
first row of the matrix is the same for every roll. -/
theorem C10_roll_rotation (p1 p2 : Point ℝ) (roll : ℝ) (h : p1 ≠ p2) :
    toMatrix (CoorTransform Real.sqrt Real.cos Real.sin p1 p2 roll) =
        Rx Real.cos Real.sin roll *
          toMatrix (CoorTransform Real.sqrt Real.cos Real.sin p1 p2 0) ∧
      ∀ roll' : ℝ,
        (CoorTransform Real.sqrt Real.cos Real.sin p1 p2 roll)[0]? =
          (CoorTransform Real.sqrt Real.cos Real.sin p1 p2 roll')[0]? := by
  refine ⟨toMatrix_roll p1 p2 roll, fun roll' => ?_⟩
  obtain ⟨h1, h2, h3⟩ := first_row_eq_dircos p1 p2 roll h
  obtain ⟨h1', h2', h3'⟩ := first_row_eq_dircos p1 p2 roll' h
  rw [CoorTransform_eq, CoorTransform_eq, h1, h2, h3, h1', h2', h3']
  rfl

/-- C10, at the element from `(0,0,0)` to `(1,2,2)` with roll `1`. -/
theorem C10_roll_rotation_witness :
    (⟨0, 0, 0⟩ : Point ℝ) ≠ ⟨1, 2, 2⟩ ∧
      toMatrix (CoorTransform Real.sqrt Real.cos Real.sin ⟨0, 0, 0⟩ ⟨1, 2, 2⟩ 1) =
        Rx Real.cos Real.sin 1 *
          toMatrix (CoorTransform Real.sqrt Real.cos Real.sin ⟨0, 0, 0⟩ ⟨1, 2, 2⟩ 0) ∧
      ∀ roll' : ℝ,
        (CoorTransform Real.sqrt Real.cos Real.sin (⟨0, 0, 0⟩ : Point ℝ) ⟨1, 2, 2⟩ 1)[0]? =
          (CoorTransform Real.sqrt Real.cos Real.sin (⟨0, 0, 0⟩ : Point ℝ) ⟨1, 2, 2⟩ roll')[0]? :=
  ⟨by simp, C10_roll_rotation ⟨0, 0, 0⟩ ⟨1, 2, 2⟩ 1 (by simp)⟩

/-- C11: in exact real arithmetic, for distinct `p1`, `p2` and every roll, the
first row of `M = CoorTransform(p1, p2, roll)` is the vector of the element's
direction cosines `(Cx, Cy, Cz) = (p2 - p1) / L`, and the product computed by
`Transform` maps the element's own axis onto the local X axis:
`M * (p2 - p1) = (L, 0, 0)` with `L = |p2 - p1|`. -/
theorem C11_axis_to_local_x (p1 p2 : Point ℝ) (roll : ℝ) (h : p1 ≠ p2) :
    (CoorTransform Real.sqrt Real.cos Real.sin p1 p2 roll)[0]? =
        some
          [(p2.x - p1.x) /
              Real.sqrt ((p2.x - p1.x) ^ 2 + (p2.y - p1.y) ^ 2 + (p2.z - p1.z) ^ 2),
            (p2.y - p1.y) /
              Real.sqrt ((p2.x - p1.x) ^ 2 + (p2.y - p1.y) ^ 2 + (p2.z - p1.z) ^ 2),
            (p2.z - p1.z) /
              Real.sqrt ((p2.x - p1.x) ^ 2 + (p2.y - p1.y) ^ 2 + (p2.z - p1.z) ^ 2)] ∧
      Transform (CoorTransform Real.sqrt Real.cos Real.sin p1 p2 roll)
          ⟨p2.x - p1.x, p2.y - p1.y, p2.z - p1.z⟩ =
        ⟨Real.sqrt ((p2.x - p1.x) ^ 2 + (p2.y - p1.y) ^ 2 + (p2.z - p1.z) ^ 2), 0, 0⟩ := by
  refine ⟨?_, Transform_axis p1 p2 roll h⟩
  obtain ⟨h1, h2, h3⟩ := first_row_eq_dircos p1 p2 roll h
  rw [CoorTransform_eq, h1, h2, h3]
  rfl

/-- C11, at the element from `(0,0,0)` to `(3,0,4)` with roll `1`: the first row
is `(3/5, 0, 4/5)` and the axis `(3,0,4)` is sent to `(5,0,0)`. -/
theorem C11_axis_to_local_x_witness :
    (⟨0, 0, 0⟩ : Point ℝ) ≠ ⟨3, 0, 4⟩ ∧
      (CoorTransform Real.sqrt Real.cos Real.sin (⟨0, 0, 0⟩ : Point ℝ) ⟨3, 0, 4⟩ 1)[0]? =
        some [3 / 5, 0, 4 / 5] ∧
      Transform (CoorTransform Real.sqrt Real.cos Real.sin (⟨0, 0, 0⟩ : Point ℝ) ⟨3, 0, 4⟩ 1)
          ⟨3, 0, 4⟩ =
        ⟨5, 0, 0⟩ := by
  have h := C11_axis_to_local_x ⟨0, 0, 0⟩ ⟨3, 0, 4⟩ 1 (by simp)
  have h25 : Real.sqrt ((3 : ℝ) ^ 2 + 4 ^ 2) = 5 := by
    rw [show (3 : ℝ) ^ 2 + 4 ^ 2 = 5 ^ 2 by norm_num]
    exact Real.sqrt_sq (by norm_num)
  simp only [sub_zero, ne_eq, OfNat.ofNat_ne_zero, not_false_eq_true, zero_pow, add_zero,
    zero_div, h25] at h
  exact ⟨by simp, h⟩

/-- C12: in exact real arithmetic, for distinct `p1`, `p2` and every roll, the
matrix returned by `CoorTransform` is a proper rotation: its determinant is
`1` (so it is not `-1`), and its third row is the cross product of its first
and second rows, in the vertical and in the general branch. -/
theorem C12_proper_rotation (p1 p2 : Point ℝ) (roll : ℝ) (h : p1 ≠ p2) :
    Matrix.det (toMatrix (CoorTransform Real.sqrt Real.cos Real.sin p1 p2 roll)) = 1 ∧
      Matrix.det (toMatrix (CoorTransform Real.sqrt Real.cos Real.sin p1 p2 roll)) ≠ -1 ∧
      at2 (CoorTransform Real.sqrt Real.cos Real.sin p1 p2 roll) 2 0 =
        at2 (CoorTransform Real.sqrt Real.cos Real.sin p1 p2 roll) 0 1 *
            at2 (CoorTransform Real.sqrt Real.cos Real.sin p1 p2 roll) 1 2 -
          at2 (CoorTransform Real.sqrt Real.cos Real.sin p1 p2 roll) 0 2 *
            at2 (CoorTransform Real.sqrt Real.cos Real.sin p1 p2 roll) 1 1 ∧
      at2 (CoorTransform Real.sqrt Real.cos Real.sin p1 p2 roll) 2 1 =
        at2 (CoorTransform Real.sqrt Real.cos Real.sin p1 p2 roll) 0 2 *
            at2 (CoorTransform Real.sqrt Real.cos Real.sin p1 p2 roll) 1 0 -
          at2 (CoorTransform Real.sqrt Real.cos Real.sin p1 p2 roll) 0 0 *
            at2 (CoorTransform Real.sqrt Real.cos Real.sin p1 p2 roll) 1 2 ∧
      at2 (CoorTransform Real.sqrt Real.cos Real.sin p1 p2 roll) 2 2 =
        at2 (CoorTransform Real.sqrt Real.cos Real.sin p1 p2 roll) 0 0 *
            at2 (CoorTransform Real.sqrt Real.cos Real.sin p1 p2 roll) 1 1 -
          at2 (CoorTransform Real.sqrt Real.cos Real.sin p1 p2 roll) 0 1 *
            at2 (CoorTransform Real.sqrt Real.cos Real.sin p1 p2 roll) 1 0 := by
  have hdet := det_toMatrix p1 p2 roll h
  obtain ⟨h7, h8, h9⟩ := third_row_eq_cross p1 p2 roll h
  refine ⟨hdet, ?_, ?_⟩
  · rw [hdet]
    norm_num
  · rw [CoorTransform_eq]
    exact ⟨h7, h8, h9⟩

/-- C12, at the element from `(0,0,0)` to `(0,0,-5)` (pointing down the global
Z axis, the vertical branch with `Cz = -1`) with roll `1`. -/
theorem C12_proper_rotation_witness :
    (⟨0, 0, 0⟩ : Point ℝ) ≠ ⟨0, 0, -5⟩ ∧
      Matrix.det
          (toMatrix (CoorTransform Real.sqrt Real.cos Real.sin ⟨0, 0, 0⟩ ⟨0, 0, -5⟩ 1)) = 1 :=
  ⟨by simp, (C12_proper_rotation ⟨0, 0, 0⟩ ⟨0, 0, -5⟩ 1 (by simp)).1⟩

/-- C13: in exact real arithmetic, the matrix depends only on the direction of
the element and on the roll: for distinct `p1`, `p2`, any `q1`, `q2` and any
`k > 0` with `q2 - q1 = k * (p2 - p1)`,
`CoorTransform(q1, q2, roll) = CoorTransform(p1, p2, roll)`.  With `k = 1` this
is invariance under translating the element, with `q1 = p1` invariance under
rescaling its length. -/
theorem C13_direction_only (p1 p2 q1 q2 : Point ℝ) (k roll : ℝ) (h : p1 ≠ p2) (hk : 0 < k)
    (hx : q2.x - q1.x = k * (p2.x - p1.x)) (hy : q2.y - q1.y = k * (p2.y - p1.y))
    (hz : q2.z - q1.z = k * (p2.z - p1.z)) :
    CoorTransform Real.sqrt Real.cos Real.sin q1 q2 roll =
      CoorTransform Real.sqrt Real.cos Real.sin p1 p2 roll := by
  obtain ⟨hCx, hCy, hCz, hden⟩ := dircos_scale p1 p2 q1 q2 k h hk hx hy hz
  rw [CoorTransform_eq, CoorTransform_eq, FromFrame3dd_congr p1 p2 q1 q2 roll hCx hCy hCz hden]

/-- C13, at the element from `(0,0,0)` to `(1,2,2)` and the element from
`(1,1,1)` to `(3,5,5)`, which is moved and twice as long, with roll `1`. -/
theorem C13_direction_only_witness :
    ((⟨0, 0, 0⟩ : Point ℝ) ≠ ⟨1, 2, 2⟩ ∧ (0 : ℝ) < 2 ∧
      (⟨3, 5, 5⟩ : Point ℝ).x - (⟨1, 1, 1⟩ : Point ℝ).x =
        2 * ((⟨1, 2, 2⟩ : Point ℝ).x - (⟨0, 0, 0⟩ : Point ℝ).x) ∧
      (⟨3, 5, 5⟩ : Point ℝ).y - (⟨1, 1, 1⟩ : Point ℝ).y =
        2 * ((⟨1, 2, 2⟩ : Point ℝ).y - (⟨0, 0, 0⟩ : Point ℝ).y) ∧
      (⟨3, 5, 5⟩ : Point ℝ).z - (⟨1, 1, 1⟩ : Point ℝ).z =
        2 * ((⟨1, 2, 2⟩ : Point ℝ).z - (⟨0, 0, 0⟩ : Point ℝ).z)) ∧
      CoorTransform Real.sqrt Real.cos Real.sin (⟨1, 1, 1⟩ : Point ℝ) ⟨3, 5, 5⟩ 1 =
        CoorTransform Real.sqrt Real.cos Real.sin (⟨0, 0, 0⟩ : Point ℝ) ⟨1, 2, 2⟩ 1 :=
  ⟨⟨by simp, by norm_num, by norm_num, by norm_num, by norm_num⟩,
    C13_direction_only ⟨0, 0, 0⟩ ⟨1, 2, 2⟩ ⟨1, 1, 1⟩ ⟨3, 5, 5⟩ 2 1 (by simp) (by norm_num)
      (by norm_num) (by norm_num) (by norm_num)⟩

end Claims

end Frame3dd
